import Mathlib

/-!
# Verification of the GeoCommander tool-calling core

Shallow embedding of the Python sources under `mcp-server/`
(`bridge.py`, `llm_providers.py`, `server.py`, `storage.py`,
`mcp_client.py`) together with proofs of the frozen claims about them.

Python `dict`/`list` values that flow through the JSON layer are modelled
by the inductive type `PyJson`.  Numeric JSON values are modelled as
arbitrary-precision integers (Python `int`); floating-point numerals are
outside the embedding.  `json.dumps` (with its default settings:
`ensure_ascii=True`, item separator `", "`, key separator `": "`) is
modelled by `pydumps`, and `json.loads` by the fuel-indexed recursive
descent parser `pyloads`.
-/

/-- Model of a Python value produced or consumed by `json.loads` /
`json.dumps`: null, booleans, integers, strings, lists and dicts
(dicts as association lists in insertion order, matching Python's
ordered dicts). -/
inductive PyJson where
  | null
  | bool (b : Bool)
  | int (n : Int)
  | str (s : String)
  | arr (elems : List PyJson)
  | obj (members : List (String × PyJson))

/-- Python truthiness of a JSON-shaped value: `None`, `False`, `0`, `""`,
`[]` and `\x7b\x7d` are falsy, everything else truthy. -/
def pyTruthy : PyJson → Bool
  | .null => false
  | .bool b => b
  | .int n => n != 0
  | .str s => s != ""
  | .arr es => !es.isEmpty
  | .obj ms => !ms.isEmpty

/-- Lookup in a Python dict built from an association list: later
bindings shadow earlier ones (as when `json.loads` meets a duplicate
key, the last occurrence wins). -/
def pyDictGet (kvs : List (String × PyJson)) (k : String) : Option PyJson :=
  (kvs.reverse.find? (fun p => p.1 = k)).map Prod.snd

/-- Hexadecimal digit used by `json.dumps` in `\uXXXX` escapes
(lowercase, as CPython emits). -/
def hexDigitChar (n : Nat) : Char :=
  if n < 10 then Char.ofNat (48 + n) else Char.ofNat (87 + n)

/-- The four hex digits of `n % 65536`, most significant first. -/
def natToHex4 (n : Nat) : List Char :=
  [hexDigitChar (n / 4096 % 16), hexDigitChar (n / 256 % 16),
   hexDigitChar (n / 16 % 16), hexDigitChar (n % 16)]

/-- Encoding of one character inside a JSON string literal, following
CPython's `json.encoder.py_encode_basestring_ascii`: `"` and `\` get a
backslash escape, the five named control characters use their short
escapes, all other characters outside `0x20..0x7e` become `\uXXXX`
(with a surrogate pair above `0xffff`). -/
def encodeChar (c : Char) : List Char :=
  let v := c.toNat
  if c = '"' then ['\\', '"']
  else if c = '\\' then ['\\', '\\']
  else if v = 8 then ['\\', 'b']
  else if v = 9 then ['\\', 't']
  else if v = 10 then ['\\', 'n']
  else if v = 12 then ['\\', 'f']
  else if v = 13 then ['\\', 'r']
  else if v < 32 then '\\' :: 'u' :: natToHex4 v
  else if v < 127 then [c]
  else if v < 65536 then '\\' :: 'u' :: natToHex4 v
  else
    let w := v - 65536
    '\\' :: 'u' :: natToHex4 (55296 + w / 1024) ++ '\\' :: 'u' :: natToHex4 (56320 + w % 1024)

/-- Body of a dumped JSON string literal (without the surrounding
quotes). -/
def encodeStringBody (s : String) : List Char :=
  s.data.foldr (fun c acc => encodeChar c ++ acc) []

/-- A dumped JSON string literal, quotes included. -/
def dumpsString (s : String) : List Char :=
  '"' :: encodeStringBody s ++ ['"']

/-- Decimal digits of a natural number, as Python's `str` prints them. -/
def natToDecChars (n : Nat) : List Char :=
  if h : n < 10 then [Char.ofNat (48 + n)]
  else natToDecChars (n / 10) ++ [Char.ofNat (48 + n % 10)]
decreasing_by exact Nat.div_lt_self (by omega) (by omega)

/-- Decimal rendering of a Python `int`, sign included. -/
def intToChars (n : Int) : List Char :=
  if n < 0 then '-' :: natToDecChars n.natAbs else natToDecChars n.natAbs

mutual

/-- Model of `json.dumps` with CPython's default settings, producing the
character list of the serialized document. -/
def dumpsVal : PyJson → List Char
  | PyJson.null => ['n', 'u', 'l', 'l']
  | PyJson.bool true => ['t', 'r', 'u', 'e']
  | PyJson.bool false => ['f', 'a', 'l', 's', 'e']
  | PyJson.int n => intToChars n
  | PyJson.str s => dumpsString s
  | PyJson.arr es => '[' :: dumpsElems es ++ [']']
  | PyJson.obj ms => '\x7b' :: dumpsMembers ms ++ ['\x7d']

/-- List elements joined by the default item separator `", "`. -/
def dumpsElems : List PyJson → List Char
  | [] => []
  | [v] => dumpsVal v
  | v :: vs => dumpsVal v ++ ',' :: ' ' :: dumpsElems vs

/-- Dict members `"key": value` joined by `", "`. -/
def dumpsMembers : List (String × PyJson) → List Char
  | [] => []
  | [(k, v)] => dumpsString k ++ ':' :: ' ' :: dumpsVal v
  | (k, v) :: ms => dumpsString k ++ ':' :: ' ' :: dumpsVal v ++ ',' :: ' ' :: dumpsMembers ms

end

/-- String form of `json.dumps`. -/
def pydumps (v : PyJson) : String := String.mk (dumpsVal v)

/-- JSON whitespace as accepted by the CPython decoder between tokens. -/
def isJsonWs (c : Char) : Bool :=
  c = ' ' || c = '\t' || c = '\n' || c = '\r'

/-- Drop leading JSON whitespace. -/
def skipWs : List Char → List Char
  | [] => []
  | c :: cs => if isJsonWs c then skipWs cs else c :: cs

/-- Value of one hexadecimal digit, upper or lower case. -/
def decodeHexDigit (c : Char) : Option Nat :=
  let v := c.toNat
  if 48 ≤ v ∧ v ≤ 57 then some (v - 48)
  else if 97 ≤ v ∧ v ≤ 102 then some (v - 87)
  else if 65 ≤ v ∧ v ≤ 70 then some (v - 55)
  else none

/-- Combine four hex digits into the code unit of a `\uXXXX` escape. -/
def hex4 (a b c d : Char) : Option Nat := do
  let x ← decodeHexDigit a
  let y ← decodeHexDigit b
  let z ← decodeHexDigit c
  let w ← decodeHexDigit d
  pure (((x * 16 + y) * 16 + z) * 16 + w)

/-- Four hex digits read off the front of the input. -/
def parseU4 : List Char → Option (Nat × List Char)
  | a :: b :: c :: d :: cs => (hex4 a b c d).map (fun n => (n, cs))
  | _ => none

/-- After a high surrogate, consume `\uXXXX` holding the low surrogate
and recombine the two code units into one character. -/
def parseLowSurrogate (hi : Nat) : List Char → Option (Char × List Char)
  | e2 :: u2 :: cs3 =>
    if e2 = '\\' ∧ u2 = 'u' then
      (parseU4 cs3).bind (fun q =>
        if 56320 ≤ q.1 ∧ q.1 < 57344 then
          some (Char.ofNat (65536 + (hi - 55296) * 1024 + (q.1 - 56320)), q.2)
        else none)
    else none
  | _ => none

/-- Decoder for a `\uXXXX` escape (backslash and `u` already consumed):
one code unit, recombining a high surrogate with a following `\uXXXX`
low surrogate as CPython's `json` scanner does.  A lone surrogate is
rejected (CPython would keep it as an unpaired surrogate, which a Lean
`Char` cannot represent; the serializer never emits one unpaired). -/
def parseUEscape (cs : List Char) : Option (Char × List Char) :=
  (parseU4 cs).bind (fun p =>
    if p.1 < 55296 ∨ 57344 ≤ p.1 then some (Char.ofNat p.1, p.2)
    else if p.1 < 56320 then parseLowSurrogate p.1 p.2
    else none)

/-- Decoder for one backslash escape (the backslash already consumed),
following the CPython `json` scanner: the eight short escapes, and
`\uXXXX` code units via `parseUEscape`. -/
def parseEscape : List Char → Option (Char × List Char)
  | [] => none
  | e :: cs =>
    if e = '"' then some ('"', cs)
    else if e = '\\' then some ('\\', cs)
    else if e = '/' then some ('/', cs)
    else if e = 'b' then some (Char.ofNat 8, cs)
    else if e = 'f' then some (Char.ofNat 12, cs)
    else if e = 'n' then some ('\n', cs)
    else if e = 'r' then some (Char.ofNat 13, cs)
    else if e = 't' then some ('\t', cs)
    else if e = 'u' then parseUEscape cs
    else none

/-- Decoder for the body of a JSON string literal (the opening quote
already consumed), following the CPython `json` scanner in strict mode:
plain characters are taken verbatim, control characters are rejected,
backslash escapes are decoded by `parseEscape`.  Returns the decoded
characters and the input remaining after the closing quote.  The
recursion is indexed by fuel; every step consumes at least one input
character, so fuel `length + 1` (as every call site supplies) never
runs out on an input the scanner accepts. -/
def parseStringBody : Nat → List Char → Option (List Char × List Char)
  | 0, _ => none
  | _ + 1, [] => none
  | fuel + 1, c :: cs =>
    if c = '"' then some ([], cs)
    else if c = '\\' then
      match parseEscape cs with
      | none => none
      | some (ch, cs2) => (parseStringBody fuel cs2).map (fun p => (ch :: p.1, p.2))
    else if c.toNat < 32 then none
    else (parseStringBody fuel cs).map (fun p => (c :: p.1, p.2))

/-- Numeric value of a list of decimal digit characters. -/
def digitsToNat (ds : List Char) : Nat :=
  ds.foldl (fun a c => a * 10 + (c.toNat - 48)) 0

/-- Number scanner matching the integer fragment of the CPython `json`
number regex `(-?(?:0|[1-9]\d+))(\.\d+)?([eE][-+]?\d+)?`: an optional
sign, then either `0` or a digit run without a leading zero.  A
fraction or exponent would produce a Python float, which is outside
this integer-valued embedding, so such inputs are rejected rather than
parsed. -/
def parseNumber (cs : List Char) : Option (PyJson × List Char) :=
  let signed : Bool × List Char := match cs with
    | [] => (false, [])
    | c :: t => if c = '-' then (true, t) else (false, c :: t)
  let ds := signed.2.takeWhile Char.isDigit
  let rest := signed.2.dropWhile Char.isDigit
  if ds.isEmpty then none
  else if ds.head? = some '0' ∧ ds.length ≠ 1 then none
  else
    match rest with
    | c :: _ =>
      if c = '.' ∨ c = 'e' ∨ c = 'E' then none
      else some (.int (if signed.1 then -(digitsToNat ds : Int) else (digitsToNat ds : Int)), rest)
    | [] => some (.int (if signed.1 then -(digitsToNat ds : Int) else (digitsToNat ds : Int)), rest)

mutual

/-- Fuel-indexed recursive-descent JSON value parser modelling the
CPython `json` scanner: skips leading whitespace, then dispatches on
the first character.  Returns the parsed value and the unconsumed
input. -/
def parseValue : Nat → List Char → Option (PyJson × List Char)
  | 0, _ => none
  | fuel + 1, cs =>
    match skipWs cs with
    | [] => none
    | c :: rest =>
      if c = 'n' then
        match rest with
        | 'u' :: 'l' :: 'l' :: r => some (.null, r)
        | _ => none
      else if c = 't' then
        match rest with
        | 'r' :: 'u' :: 'e' :: r => some (.bool true, r)
        | _ => none
      else if c = 'f' then
        match rest with
        | 'a' :: 'l' :: 's' :: 'e' :: r => some (.bool false, r)
        | _ => none
      else if c = '"' then
        (parseStringBody (rest.length + 1) rest).map (fun p => (.str (String.mk p.1), p.2))
      else if c = '[' then
        match skipWs rest with
        | [] => none
        | d :: r => if d = ']' then some (.arr [], r)
                    else (parseElems fuel (d :: r)).map (fun p => (.arr p.1, p.2))
      else if c = '\x7b' then
        match skipWs rest with
        | [] => none
        | d :: r => if d = '\x7d' then some (.obj [], r)
                    else (parseMembers fuel (d :: r)).map (fun p => (.obj p.1, p.2))
      else parseNumber (c :: rest)

/-- One or more comma-separated array elements followed by `]`. -/
def parseElems : Nat → List Char → Option (List PyJson × List Char)
  | 0, _ => none
  | fuel + 1, cs =>
    match parseValue fuel cs with
    | none => none
    | some (v, r) =>
      match skipWs r with
      | [] => none
      | d :: r2 =>
        if d = ',' then (parseElems fuel r2).map (fun p => (v :: p.1, p.2))
        else if d = ']' then some ([v], r2)
        else none

/-- One or more comma-separated `"key": value` members followed by
the closing brace. -/
def parseMembers : Nat → List Char → Option (List (String × PyJson) × List Char)
  | 0, _ => none
  | fuel + 1, cs =>
    match skipWs cs with
    | [] => none
    | c :: rest =>
      if c = '"' then
        match parseStringBody (rest.length + 1) rest with
        | none => none
        | some (kds, r) =>
          match skipWs r with
          | [] => none
          | d :: r2 =>
            if d = ':' then
              match parseValue fuel r2 with
              | none => none
              | some (v, r3) =>
                match skipWs r3 with
                | [] => none
                | d2 :: r4 =>
                  if d2 = ',' then
                    (parseMembers fuel r4).map (fun p => ((String.mk kds, v) :: p.1, p.2))
                  else if d2 = '\x7d' then some ([(String.mk kds, v)], r4)
                  else none
            else none
      else none

end

/-- Model of `json.loads`: parse one JSON document and require that
only whitespace remains; any other outcome is a `JSONDecodeError`,
modelled as `none`. -/
def pyloads (s : String) : Option PyJson :=
  match parseValue (s.data.length + 1) s.data with
  | some (v, rest) => if skipWs rest = [] then some v else none
  | none => none

/-! ## Round trip of `pydumps` and `pyloads`

The lemmas below establish that parsing the output of the serializer
returns the original value, culminating in `pyloads_pydumps`. -/

theorem char_toNat_ofNat (n : Nat) (h : n.isValidChar) : (Char.ofNat n).toNat = n := by
  unfold Char.ofNat
  rw [dif_pos h]
  unfold Char.ofNatAux Char.toNat
  simp [UInt32.toNat]

theorem charValidNat (c : Char) : c.toNat < 55296 ∨ (57344 ≤ c.toNat ∧ c.toNat < 1114112) := by
  have h := c.valid
  unfold UInt32.isValidChar Nat.isValidChar at h
  unfold Char.toNat
  rcases h with h | h
  · left; exact h
  · right; exact ⟨by omega, h.2⟩

theorem char_ne_of_toNat_ne {a b : Char} (h : a.toNat ≠ b.toNat) : a ≠ b := by
  intro hab; exact h (by rw [hab])

theorem char_eq_of_toNat_eq {a b : Char} (h : a.toNat = b.toNat) : a = b := by
  have := Char.ofNat_toNat a
  rw [h, Char.ofNat_toNat b] at this
  exact this.symm

theorem skipWs_cons_ws {w : Char} (h : isJsonWs w = true) (cs : List Char) :
    skipWs (w :: cs) = skipWs cs := by
  simp [skipWs, h]

theorem skipWs_cons_not_ws {c : Char} (h : isJsonWs c = false) (cs : List Char) :
    skipWs (c :: cs) = c :: cs := by
  simp [skipWs, h]

theorem parseValue_ws {w : Char} (h : isJsonWs w = true) (fuel : Nat) (cs : List Char) :
    parseValue fuel (w :: cs) = parseValue fuel cs := by
  cases fuel with
  | zero => rfl
  | succ g => simp only [parseValue, skipWs_cons_ws h]

theorem parseElems_ws {w : Char} (h : isJsonWs w = true) (fuel : Nat) (cs : List Char) :
    parseElems fuel (w :: cs) = parseElems fuel cs := by
  cases fuel with
  | zero => rfl
  | succ g => simp only [parseElems, parseValue_ws h]

theorem parseMembers_ws {w : Char} (h : isJsonWs w = true) (fuel : Nat) (cs : List Char) :
    parseMembers fuel (w :: cs) = parseMembers fuel cs := by
  cases fuel with
  | zero => rfl
  | succ g => simp only [parseMembers, skipWs_cons_ws h]

theorem decodeHexDigit_hexDigitChar {d : Nat} (h : d < 16) :
    decodeHexDigit (hexDigitChar d) = some d := by
  have hfin : ∀ x : Fin 16, decodeHexDigit (hexDigitChar x.val) = some x.val := by decide
  exact hfin ⟨d, h⟩

theorem hex4_natToHex4 {n : Nat} (h : n < 65536) :
    hex4 (hexDigitChar (n / 4096 % 16)) (hexDigitChar (n / 256 % 16))
      (hexDigitChar (n / 16 % 16)) (hexDigitChar (n % 16)) = some n := by
  rw [hex4]
  rw [decodeHexDigit_hexDigitChar (by omega), decodeHexDigit_hexDigitChar (by omega),
      decodeHexDigit_hexDigitChar (by omega), decodeHexDigit_hexDigitChar (by omega)]
  simp only [Option.bind_eq_bind, Option.some_bind]
  congr 1
  omega

theorem parseU4_natToHex4 {n : Nat} (h : n < 65536) (cs : List Char) :
    parseU4 (natToHex4 n ++ cs) = some (n, cs) := by
  simp only [natToHex4, List.cons_append, List.nil_append]
  simp only [parseU4]
  rw [hex4_natToHex4 h]
  rfl

theorem parseUEscape_bmp {n : Nat} (h : n < 65536) (hval : n < 55296 ∨ 57344 ≤ n)
    (cs : List Char) : parseUEscape (natToHex4 n ++ cs) = some (Char.ofNat n, cs) := by
  rw [parseUEscape, parseU4_natToHex4 h, Option.some_bind]
  dsimp only
  rw [if_pos hval]

theorem parseUEscape_surrogatePair (c : Char) (cs : List Char) (hbig : ¬c.toNat < 65536) :
    parseUEscape (natToHex4 (55296 + (c.toNat - 65536) / 1024) ++
      ('\\' :: 'u' :: (natToHex4 (56320 + (c.toNat - 65536) % 1024) ++ cs))) = some (c, cs) := by
  have hrange : c.toNat < 1114112 := by
    rcases charValidNat c with h | h
    · omega
    · exact h.2
  rw [parseUEscape,
      parseU4_natToHex4 (by omega : 55296 + (c.toNat - 65536) / 1024 < 65536),
      Option.some_bind]
  dsimp only
  rw [if_neg (by omega :
    ¬(55296 + (c.toNat - 65536) / 1024 < 55296 ∨ 57344 ≤ 55296 + (c.toNat - 65536) / 1024))]
  rw [if_pos (by omega : 55296 + (c.toNat - 65536) / 1024 < 56320)]
  simp only [parseLowSurrogate]
  simp only [Char.reduceEq, reduceIte, and_self, if_true]
  rw [parseU4_natToHex4 (by omega : 56320 + (c.toNat - 65536) % 1024 < 65536), Option.some_bind]
  dsimp only
  rw [if_pos (by omega :
    56320 ≤ 56320 + (c.toNat - 65536) % 1024 ∧ 56320 + (c.toNat - 65536) % 1024 < 57344)]
  rw [show 65536 + (55296 + (c.toNat - 65536) / 1024 - 55296) * 1024 +
        (56320 + (c.toNat - 65536) % 1024 - 56320) = c.toNat from by omega]
  rw [Char.ofNat_toNat]

theorem parseEscape_u (cs : List Char) : parseEscape ('u' :: cs) = parseUEscape cs := by
  simp [parseEscape]

theorem psb_close (fuel : Nat) (cs : List Char) :
    parseStringBody (fuel + 1) ('"' :: cs) = some ([], cs) := by
  simp [parseStringBody]

theorem psb_esc {cs cs2 : List Char} {ch : Char} (h : parseEscape cs = some (ch, cs2))
    (fuel : Nat) : parseStringBody (fuel + 1) ('\\' :: cs) =
      (parseStringBody fuel cs2).map (fun p => (ch :: p.1, p.2)) := by
  simp [parseStringBody, h]

theorem psb_lit {c : Char} (h1 : ¬c = '"') (h2 : ¬c = '\\') (h3 : ¬c.toNat < 32)
    (fuel : Nat) (cs : List Char) :
    parseStringBody (fuel + 1) (c :: cs) =
      (parseStringBody fuel cs).map (fun p => (c :: p.1, p.2)) := by
  simp only [parseStringBody]
  rw [if_neg h1, if_neg h2, if_neg h3]

theorem psb_encodeChar (c : Char) (cs : List Char) (fuel : Nat) :
    parseStringBody (fuel + 1) (encodeChar c ++ cs) =
      (parseStringBody fuel cs).map (fun p => (c :: p.1, p.2)) := by
  by_cases h1 : c = '"'
  · subst h1
    have hesc : parseEscape ('"' :: cs) = some ('"', cs) := by simp [parseEscape]
    show parseStringBody (fuel + 1) ('\\' :: '"' :: cs) = _
    rw [psb_esc hesc fuel]
  by_cases h2 : c = '\\'
  · subst h2
    have hesc : parseEscape ('\\' :: cs) = some ('\\', cs) := by simp [parseEscape]
    show parseStringBody (fuel + 1) ('\\' :: '\\' :: cs) = _
    rw [psb_esc hesc fuel]
  by_cases h8 : c.toNat = 8
  · have hc : c = Char.ofNat 8 := char_eq_of_toNat_eq (by rw [h8]; rfl)
    subst hc
    have hesc : parseEscape ('b' :: cs) = some (Char.ofNat 8, cs) := by
      simp [parseEscape]
    show parseStringBody (fuel + 1) ('\\' :: 'b' :: cs) = _
    rw [psb_esc hesc fuel]
  by_cases h9 : c.toNat = 9
  · have hc : c = Char.ofNat 9 := char_eq_of_toNat_eq (by rw [h9]; rfl)
    subst hc
    have hesc : parseEscape ('t' :: cs) = some (Char.ofNat 9, cs) := by
      simp [parseEscape]
    show parseStringBody (fuel + 1) ('\\' :: 't' :: cs) = _
    rw [psb_esc hesc fuel]
  by_cases h10 : c.toNat = 10
  · have hc : c = Char.ofNat 10 := char_eq_of_toNat_eq (by rw [h10]; rfl)
    subst hc
    have hesc : parseEscape ('n' :: cs) = some (Char.ofNat 10, cs) := by
      simp [parseEscape]
    show parseStringBody (fuel + 1) ('\\' :: 'n' :: cs) = _
    rw [psb_esc hesc fuel]
  by_cases h12 : c.toNat = 12
  · have hc : c = Char.ofNat 12 := char_eq_of_toNat_eq (by rw [h12]; rfl)
    subst hc
    have hesc : parseEscape ('f' :: cs) = some (Char.ofNat 12, cs) := by
      simp [parseEscape]
    show parseStringBody (fuel + 1) ('\\' :: 'f' :: cs) = _
    rw [psb_esc hesc fuel]
  by_cases h13 : c.toNat = 13
  · have hc : c = Char.ofNat 13 := char_eq_of_toNat_eq (by rw [h13]; rfl)
    subst hc
    have hesc : parseEscape ('r' :: cs) = some (Char.ofNat 13, cs) := by
      simp [parseEscape]
    show parseStringBody (fuel + 1) ('\\' :: 'r' :: cs) = _
    rw [psb_esc hesc fuel]
  by_cases hlt32 : c.toNat < 32
  · have he : encodeChar c = '\\' :: 'u' :: natToHex4 c.toNat := by
      simp only [encodeChar]
      rw [if_neg h1, if_neg h2, if_neg h8, if_neg h9, if_neg h10, if_neg h12, if_neg h13,
          if_pos hlt32]
    rw [he]
    simp only [List.cons_append]
    rw [psb_esc (by
      rw [parseEscape_u]
      exact parseUEscape_bmp (by omega) (Or.inl (by omega)) cs) fuel]
    rw [Char.ofNat_toNat]
  by_cases hlt127 : c.toNat < 127
  · have he : encodeChar c = [c] := by
      simp only [encodeChar]
      rw [if_neg h1, if_neg h2, if_neg h8, if_neg h9, if_neg h10, if_neg h12, if_neg h13,
          if_neg hlt32, if_pos hlt127]
    rw [he]
    show parseStringBody (fuel + 1) (c :: cs) = _
    rw [psb_lit h1 h2 hlt32]
  by_cases hbmp : c.toNat < 65536
  · have he : encodeChar c = '\\' :: 'u' :: natToHex4 c.toNat := by
      simp only [encodeChar]
      rw [if_neg h1, if_neg h2, if_neg h8, if_neg h9, if_neg h10, if_neg h12, if_neg h13,
          if_neg hlt32, if_neg hlt127, if_pos hbmp]
    rw [he]
    simp only [List.cons_append]
    have hval : c.toNat < 55296 ∨ 57344 ≤ c.toNat := by
      rcases charValidNat c with h | h
      · exact Or.inl h
      · exact Or.inr h.1
    rw [psb_esc (by
      rw [parseEscape_u]
      exact parseUEscape_bmp hbmp hval cs) fuel]
    rw [Char.ofNat_toNat]
  · have he : encodeChar c =
        '\\' :: 'u' :: natToHex4 (55296 + (c.toNat - 65536) / 1024) ++
          '\\' :: 'u' :: natToHex4 (56320 + (c.toNat - 65536) % 1024) := by
      simp only [encodeChar]
      rw [if_neg h1, if_neg h2, if_neg h8, if_neg h9, if_neg h10, if_neg h12, if_neg h13,
          if_neg hlt32, if_neg hlt127, if_neg hbmp]
    rw [he]
    simp only [List.cons_append, List.append_assoc]
    rw [psb_esc (by
      rw [parseEscape_u]
      exact parseUEscape_surrogatePair c cs hbmp) fuel]

theorem one_le_encodeChar_length (c : Char) : 1 ≤ (encodeChar c).length := by
  simp only [encodeChar]
  repeat' split
  all_goals simp [natToHex4]

theorem length_le_encodeBody_length (l : List Char) :
    l.length ≤ (l.foldr (fun c acc => encodeChar c ++ acc) []).length := by
  induction l with
  | nil => simp
  | cons c l ih =>
    simp only [List.foldr_cons, List.length_cons, List.length_append]
    have := one_le_encodeChar_length c
    omega

theorem psb_encodeBody (l : List Char) : ∀ (rest : List Char) (fuel : Nat), l.length < fuel →
    parseStringBody fuel (l.foldr (fun c acc => encodeChar c ++ acc) [] ++ '"' :: rest) =
      some (l, rest) := by
  induction l with
  | nil =>
    intro rest fuel h
    obtain ⟨f, rfl⟩ : ∃ f, fuel = f + 1 := ⟨fuel - 1, by omega⟩
    simpa using psb_close f rest
  | cons c l ih =>
    intro rest fuel h
    obtain ⟨f, rfl⟩ : ∃ f, fuel = f + 1 := ⟨fuel - 1, by omega⟩
    simp only [List.foldr_cons, List.append_assoc]
    rw [psb_encodeChar c _ f]
    rw [ih rest f (by simp at h; omega)]
    rfl

theorem string_mk_data (s : String) : String.mk s.data = s := rfl

theorem psb_dumpsString (s : String) (rest : List Char) (fuel : Nat)
    (h : s.data.length < fuel) :
    parseStringBody fuel (encodeStringBody s ++ '"' :: rest) = some (s.data, rest) :=
  psb_encodeBody s.data rest fuel h

theorem ndc_small {n : Nat} (h : n < 10) : natToDecChars n = [Char.ofNat (48 + n)] := by
  rw [natToDecChars]
  exact dif_pos h

theorem ndc_large {n : Nat} (h : ¬n < 10) :
    natToDecChars n = natToDecChars (n / 10) ++ [Char.ofNat (48 + n % 10)] := by
  conv_lhs => rw [natToDecChars]
  exact dif_neg h

theorem digitChar_isDigit {d : Nat} (h : d < 10) : (Char.ofNat (48 + d)).isDigit = true := by
  have hfin : ∀ x : Fin 10, (Char.ofNat (48 + x.val)).isDigit = true := by decide
  exact hfin ⟨d, h⟩

theorem digitChar_toNat {d : Nat} (h : d < 10) : (Char.ofNat (48 + d)).toNat = 48 + d :=
  char_toNat_ofNat (48 + d) (Or.inl (by omega))

theorem ndc_ne_nil (n : Nat) : natToDecChars n ≠ [] := by
  by_cases h : n < 10
  · rw [ndc_small h]; simp
  · rw [ndc_large h]; simp

theorem ndc_digits (n : Nat) : ∀ c ∈ natToDecChars n, c.isDigit = true := by
  induction n using Nat.strong_induction_on with
  | _ n ih =>
    by_cases h : n < 10
    · rw [ndc_small h]
      intro c hc
      simp at hc
      subst hc
      exact digitChar_isDigit h
    · rw [ndc_large h]
      intro c hc
      rcases List.mem_append.mp hc with hm | hm
      · exact ih (n / 10) (Nat.div_lt_self (by omega) (by omega)) c hm
      · simp at hm
        subst hm
        exact digitChar_isDigit (Nat.mod_lt n (by omega))

theorem ndc_head_ne_zero {n : Nat} (h : 1 ≤ n) : (natToDecChars n).head? ≠ some '0' := by
  induction n using Nat.strong_induction_on with
  | _ n ih =>
    by_cases hs : n < 10
    · rw [ndc_small hs]
      intro hcon
      simp at hcon
      have := congrArg Char.toNat hcon
      rw [digitChar_toNat hs] at this
      have h0 : ('0' : Char).toNat = 48 := rfl
      omega
    · rw [ndc_large hs]
      obtain ⟨d, ds, hds⟩ := List.exists_cons_of_ne_nil (ndc_ne_nil (n / 10))
      rw [hds]
      simp only [List.cons_append, List.head?_cons]
      have := ih (n / 10) (Nat.div_lt_self (by omega) (by omega)) (by
        have := Nat.div_pos (by omega : 10 ≤ n) (by omega : 0 < 10)
        omega)
      rw [hds] at this
      simpa using this

theorem digitsToNat_append_one (xs : List Char) (c : Char) :
    digitsToNat (xs ++ [c]) = 10 * digitsToNat xs + (c.toNat - 48) := by
  simp [digitsToNat, List.foldl_append]
  omega

theorem digitsToNat_ndc (n : Nat) : digitsToNat (natToDecChars n) = n := by
  induction n using Nat.strong_induction_on with
  | _ n ih =>
    by_cases h : n < 10
    · rw [ndc_small h]
      simp [digitsToNat, digitChar_toNat h]
    · rw [ndc_large h, digitsToNat_append_one,
          ih (n / 10) (Nat.div_lt_self (by omega) (by omega)),
          digitChar_toNat (Nat.mod_lt n (by omega))]
      omega

/-- The character after a serialized value, if any, never extends a
numeric token: it is a separator or a closing bracket. -/
def numDelim : List Char → Prop
  | [] => True
  | c :: _ => c.isDigit = false ∧ ¬c = '.' ∧ ¬c = 'e' ∧ ¬c = 'E'

theorem takeWhile_append_all {p : Char → Bool} (ds rest : List Char)
    (hall : ∀ c ∈ ds, p c = true)
    (hrest : rest.head?.all (fun r => !p r) = true) :
    (ds ++ rest).takeWhile p = ds ∧ (ds ++ rest).dropWhile p = rest := by
  induction ds with
  | nil =>
    cases rest with
    | nil => simp
    | cons r rs =>
      simp at hrest
      simp [List.takeWhile, List.dropWhile, hrest]
  | cons d ds ih =>
    have hd := hall d (by simp)
    have hrec := ih (fun c hc => hall c (by simp [hc]))
    simp only [List.cons_append, List.takeWhile_cons, List.dropWhile_cons, hd]
    simp [hrec.1, hrec.2]

theorem parseNumber_ndc (m : Nat) (rest : List Char) (hd : numDelim rest) :
    (natToDecChars m ++ rest).takeWhile Char.isDigit = natToDecChars m ∧
    (natToDecChars m ++ rest).dropWhile Char.isDigit = rest := by
  apply takeWhile_append_all _ _ (ndc_digits m)
  cases rest with
  | nil => simp
  | cons r rs =>
    simp [numDelim] at hd
    simp [hd.1]

theorem isDigit_ne_dash {d : Char} (h : d.isDigit = true) : ¬d = '-' := by
  intro hc
  subst hc
  simp [Char.isDigit] at h

theorem ndc_guard (m : Nat) :
    ¬((natToDecChars m).head? = some '0' ∧ (natToDecChars m).length ≠ 1) := by
  by_cases h0 : m = 0
  · subst h0
    rw [ndc_small (by omega)]
    simp
  · intro hc
    exact ndc_head_ne_zero (by omega) hc.1

theorem parseNumber_nat (m : Nat) (rest : List Char) (hd : numDelim rest) :
    parseNumber (natToDecChars m ++ rest) = some (.int (m : Int), rest) := by
  obtain ⟨d, ds0, hds⟩ := List.exists_cons_of_ne_nil (ndc_ne_nil m)
  have hdig : d.isDigit = true := ndc_digits m d (by rw [hds]; simp)
  simp only [parseNumber]
  rw [hds, List.cons_append]
  simp only [isDigit_ne_dash hdig, if_false, reduceIte]
  rw [← List.cons_append, ← hds]
  have hspan := parseNumber_ndc m rest hd
  rw [hspan.1, hspan.2]
  rw [if_neg (by simp [ndc_ne_nil m] : ¬(natToDecChars m).isEmpty = true)]
  rw [if_neg (ndc_guard m)]
  cases rest with
  | nil =>
    simp [digitsToNat_ndc m]
  | cons r rs =>
    simp only [numDelim] at hd
    dsimp only
    rw [if_neg (show ¬(r = '.' ∨ r = 'e' ∨ r = 'E') by
      push_neg
      exact hd.2)]
    simp [digitsToNat_ndc m]

theorem parseNumber_intToChars (n : Int) (rest : List Char) (hd : numDelim rest) :
    parseNumber (intToChars n ++ rest) = some (.int n, rest) := by
  by_cases hn : n < 0
  · rw [intToChars, if_pos hn, List.cons_append]
    obtain ⟨d, ds0, hds⟩ := List.exists_cons_of_ne_nil (ndc_ne_nil n.natAbs)
    simp only [parseNumber]
    simp only [Char.reduceEq, reduceIte]
    have hspan := parseNumber_ndc n.natAbs rest hd
    rw [hspan.1, hspan.2]
    rw [if_neg (by simp [ndc_ne_nil n.natAbs] : ¬(natToDecChars n.natAbs).isEmpty = true)]
    rw [if_neg (ndc_guard n.natAbs)]
    cases rest with
    | nil =>
      simp only [digitsToNat_ndc n.natAbs, reduceIte]
      rw [show -((n.natAbs : Nat) : Int) = n from by omega]
    | cons r rs =>
      simp only [numDelim] at hd
      dsimp only
      rw [if_neg (show ¬(r = '.' ∨ r = 'e' ∨ r = 'E') by
        push_neg
        exact hd.2)]
      simp only [digitsToNat_ndc n.natAbs, reduceIte]
      rw [show -((n.natAbs : Nat) : Int) = n from by omega]
  · have heq : ((n.natAbs : Nat) : Int) = n := by omega
    rw [intToChars, if_neg hn, parseNumber_nat n.natAbs rest hd, heq]

/-- What may legally follow a serialized value: nothing, or a comma or
closing bracket supplied by the enclosing serializer. -/
def delimOk : List Char → Prop
  | [] => True
  | c :: _ => c = ',' ∨ c = ']' ∨ c = '\x7d'

theorem numDelim_of_delimOk {rest : List Char} (h : delimOk rest) : numDelim rest := by
  cases rest with
  | nil => trivial
  | cons c cs =>
    rcases h with h | h | h <;> subst h <;> exact ⟨by decide, by decide, by decide, by decide⟩

theorem char_head_facts {c : Char} (h45 : 45 ≤ c.toNat) (h57 : c.toNat ≤ 57) :
    isJsonWs c = false ∧ ¬c = 'n' ∧ ¬c = 't' ∧ ¬c = 'f' ∧ ¬c = '"' ∧ ¬c = '[' ∧
      ¬c = '\x7b' ∧ ¬c = ']' ∧ ¬c = '\x7d' ∧ ¬c = ',' ∧ ¬c = ':' := by
  refine ⟨?_, ?_, ?_, ?_, ?_, ?_, ?_, ?_, ?_, ?_, ?_⟩
  · by_contra hcon
    simp only [Bool.not_eq_false] at hcon
    simp only [isJsonWs, Bool.or_eq_true, decide_eq_true_eq] at hcon
    obtain ((h | h) | h) | h := hcon <;> subst h <;> exact absurd h45 (by decide)
  · exact char_ne_of_toNat_ne (by rw [show ('n' : Char).toNat = 110 from rfl]; omega)
  · exact char_ne_of_toNat_ne (by rw [show ('t' : Char).toNat = 116 from rfl]; omega)
  · exact char_ne_of_toNat_ne (by rw [show ('f' : Char).toNat = 102 from rfl]; omega)
  · exact char_ne_of_toNat_ne (by rw [show ('"' : Char).toNat = 34 from rfl]; omega)
  · exact char_ne_of_toNat_ne (by rw [show ('[' : Char).toNat = 91 from rfl]; omega)
  · exact char_ne_of_toNat_ne (by rw [show ('\x7b' : Char).toNat = 123 from rfl]; omega)
  · exact char_ne_of_toNat_ne (by rw [show (']' : Char).toNat = 93 from rfl]; omega)
  · exact char_ne_of_toNat_ne (by rw [show ('\x7d' : Char).toNat = 125 from rfl]; omega)
  · exact char_ne_of_toNat_ne (by rw [show (',' : Char).toNat = 44 from rfl]; omega)
  · exact char_ne_of_toNat_ne (by rw [show (':' : Char).toNat = 58 from rfl]; omega)

theorem one_le_dumpsVal_length (v : PyJson) : 1 ≤ (dumpsVal v).length := by
  cases v with
  | null => simp [dumpsVal]
  | bool b => cases b <;> simp [dumpsVal]
  | int n =>
    simp only [dumpsVal, intToChars]
    split
    · simp
    · have := ndc_ne_nil n.natAbs
      cases hnd : natToDecChars n.natAbs with
      | nil => exact absurd hnd this
      | cons a as => simp [hnd]
  | str s => simp [dumpsVal, dumpsString]
  | arr es => simp [dumpsVal]
  | obj ms => simp [dumpsVal]

theorem isDigit_toNat {c : Char} (h : c.isDigit = true) : 48 ≤ c.toNat ∧ c.toNat ≤ 57 := by
  simp only [Char.isDigit, Bool.and_eq_true, decide_eq_true_eq] at h
  exact ⟨h.1, h.2⟩

theorem intToChars_head (n : Int) :
    ∃ c0 cs0, intToChars n = c0 :: cs0 ∧ 45 ≤ c0.toNat ∧ c0.toNat ≤ 57 := by
  rw [intToChars]
  split
  · exact ⟨'-', natToDecChars n.natAbs, rfl, by decide, by decide⟩
  · obtain ⟨d, ds, hds⟩ := List.exists_cons_of_ne_nil (ndc_ne_nil n.natAbs)
    have hdig := isDigit_toNat (ndc_digits n.natAbs d (by rw [hds]; simp))
    exact ⟨d, ds, hds, by omega, by omega⟩

theorem dumpsVal_head (v : PyJson) :
    ∃ c0 cs0, dumpsVal v = c0 :: cs0 ∧ isJsonWs c0 = false ∧ ¬c0 = ']' ∧ ¬c0 = '\x7d' := by
  cases v with
  | int n =>
    obtain ⟨c0, cs0, hc, h45, h57⟩ := intToChars_head n
    obtain ⟨hws, _, _, _, _, _, _, hrb, hcb, _, _⟩ := char_head_facts h45 h57
    exact ⟨c0, cs0, hc, hws, hrb, hcb⟩
  | null => refine ⟨'n', _, rfl, ?_, ?_, ?_⟩ <;> decide
  | bool b => cases b <;> refine ⟨_, _, rfl, ?_, ?_, ?_⟩ <;> decide
  | str s => refine ⟨'"', _, rfl, ?_, ?_, ?_⟩ <;> decide
  | arr es => refine ⟨'[', _, rfl, ?_, ?_, ?_⟩ <;> decide
  | obj ms => refine ⟨'\x7b', _, rfl, ?_, ?_, ?_⟩ <;> decide

theorem dumpsElems_cons_length (v0 w : PyJson) (ws : List PyJson) :
    (dumpsElems (v0 :: w :: ws)).length =
      (dumpsVal v0).length + 2 + (dumpsElems (w :: ws)).length := by
  simp [dumpsElems]
  omega

theorem dumpsMembers_cons_length (k : String) (v0 : PyJson) (m : String × PyJson)
    (ms : List (String × PyJson)) :
    (dumpsMembers ((k, v0) :: m :: ms)).length =
      (dumpsString k).length + 2 + (dumpsVal v0).length + 2 + (dumpsMembers (m :: ms)).length := by
  obtain ⟨k2, v2⟩ := m
  simp [dumpsMembers]
  omega

mutual

theorem rtV (v : PyJson) (rest : List Char) (fuel : Nat)
    (hfuel : (dumpsVal v).length ≤ fuel) (hrest : delimOk rest) :
    parseValue fuel (dumpsVal v ++ rest) = some (v, rest) := by
  obtain ⟨f, rfl⟩ : ∃ f, fuel = f + 1 :=
    ⟨fuel - 1, by have := one_le_dumpsVal_length v; omega⟩
  cases v with
  | null =>
    show parseValue (f + 1) ('n' :: 'u' :: 'l' :: 'l' :: rest) = _
    simp only [parseValue]
    rw [skipWs_cons_not_ws (by decide)]
    simp only [Char.reduceEq, reduceIte]
  | bool b =>
    cases b with
    | true =>
      show parseValue (f + 1) ('t' :: 'r' :: 'u' :: 'e' :: rest) = _
      simp only [parseValue]
      rw [skipWs_cons_not_ws (by decide)]
      simp only [Char.reduceEq, reduceIte]
    | false =>
      show parseValue (f + 1) ('f' :: 'a' :: 'l' :: 's' :: 'e' :: rest) = _
      simp only [parseValue]
      rw [skipWs_cons_not_ws (by decide)]
      simp only [Char.reduceEq, reduceIte]
  | int n =>
    obtain ⟨c0, cs0, hc, h45, h57⟩ := intToChars_head n
    obtain ⟨hws, hn, ht, hf, hq, hlb, hob, _, _, _, _⟩ := char_head_facts h45 h57
    show parseValue (f + 1) (intToChars n ++ rest) = _
    rw [hc, List.cons_append]
    simp only [parseValue]
    rw [skipWs_cons_not_ws hws]
    dsimp only
    rw [if_neg hn, if_neg ht, if_neg hf, if_neg hq, if_neg hlb, if_neg hob]
    rw [← List.cons_append, ← hc]
    exact parseNumber_intToChars n rest (numDelim_of_delimOk hrest)
  | str s =>
    show parseValue (f + 1) ('"' :: ((encodeStringBody s ++ ['"']) ++ rest)) = _
    simp only [parseValue]
    rw [skipWs_cons_not_ws (by decide)]
    simp only [Char.reduceEq, reduceIte]
    rw [List.append_assoc]
    simp only [List.singleton_append]
    rw [psb_dumpsString s rest _ (by
      have h1 := length_le_encodeBody_length s.data
      simp only [List.length_append, List.length_cons]
      have h2 : (encodeStringBody s).length =
          (s.data.foldr (fun c acc => encodeChar c ++ acc) []).length := rfl
      omega)]
    rfl
  | arr es =>
    cases es with
    | nil =>
      show parseValue (f + 1) ('[' :: (([] : List Char) ++ [']']) ++ rest) = _
      simp only [List.nil_append, List.cons_append, List.singleton_append]
      simp only [parseValue]
      rw [skipWs_cons_not_ws (by decide)]
      dsimp only
      simp only [Char.reduceEq, reduceIte]
      rw [skipWs_cons_not_ws (by decide)]
      dsimp only
      simp only [Char.reduceEq, reduceIte]
    | cons v0 vs =>
      obtain ⟨c0, cs0, hc, hws, hrb, hcb⟩ := dumpsVal_head v0
      obtain ⟨tl, htl⟩ : ∃ tl, dumpsElems (v0 :: vs) = dumpsVal v0 ++ tl := by
        cases vs with
        | nil => exact ⟨[], by simp [dumpsElems]⟩
        | cons w ws => exact ⟨',' :: ' ' :: dumpsElems (w :: ws), rfl⟩
      show parseValue (f + 1) ('[' :: (dumpsElems (v0 :: vs) ++ [']']) ++ rest) = _
      simp only [List.cons_append, List.append_assoc, List.singleton_append]
      simp only [parseValue]
      rw [skipWs_cons_not_ws (by decide)]
      dsimp only
      simp only [Char.reduceEq, reduceIte]
      rw [htl, hc]
      simp only [List.cons_append, List.append_assoc, List.nil_append]
      rw [skipWs_cons_not_ws hws]
      dsimp only
      rw [if_neg hrb]
      have hback : c0 :: (cs0 ++ (tl ++ ']' :: rest)) = dumpsElems (v0 :: vs) ++ ']' :: rest := by
        rw [htl, hc]
        simp [List.cons_append, List.append_assoc]
      rw [hback]
      rw [rtE (v0 :: vs) (by simp) rest f (by
        simp only [dumpsVal, List.length_cons, List.length_append, List.length_singleton] at hfuel
        omega)]
      rfl
  | obj ms =>
    cases ms with
    | nil =>
      show parseValue (f + 1) ('\x7b' :: (([] : List Char) ++ ['\x7d']) ++ rest) = _
      simp only [List.nil_append, List.cons_append, List.singleton_append]
      simp only [parseValue]
      rw [skipWs_cons_not_ws (by decide)]
      dsimp only
      simp only [Char.reduceEq, reduceIte]
      rw [skipWs_cons_not_ws (by decide)]
      dsimp only
      simp only [Char.reduceEq, reduceIte]
    | cons m ms0 =>
      obtain ⟨tl, htl⟩ : ∃ tl, dumpsMembers (m :: ms0) = dumpsString m.1 ++ tl := by
        obtain ⟨k, v0⟩ := m
        cases ms0 with
        | nil => exact ⟨':' :: ' ' :: dumpsVal v0, by simp [dumpsMembers]⟩
        | cons m2 ms2 =>
          exact ⟨':' :: ' ' :: dumpsVal v0 ++ ',' :: ' ' :: dumpsMembers (m2 :: ms2),
            by simp [dumpsMembers]⟩
      show parseValue (f + 1) ('\x7b' :: (dumpsMembers (m :: ms0) ++ ['\x7d']) ++ rest) = _
      simp only [List.cons_append, List.append_assoc, List.singleton_append]
      simp only [parseValue]
      rw [skipWs_cons_not_ws (by decide)]
      dsimp only
      simp only [Char.reduceEq, reduceIte]
      rw [htl]
      simp only [dumpsString, List.cons_append, List.append_assoc, List.nil_append,
        List.singleton_append]
      rw [skipWs_cons_not_ws (by decide)]
      dsimp only
      simp only [Char.reduceEq, reduceIte]
      have hback : '"' :: (encodeStringBody m.1 ++ ('"' :: (tl ++ '\x7d' :: rest))) =
          dumpsMembers (m :: ms0) ++ '\x7d' :: rest := by
        rw [htl]
        simp [dumpsString, List.cons_append, List.append_assoc]
      rw [hback]
      rw [rtM (m :: ms0) (by simp) rest f (by
        simp only [dumpsVal, List.length_cons, List.length_append, List.length_singleton] at hfuel
        omega)]
      rfl

termination_by sizeOf v
decreasing_by all_goals (subst_vars; solve | simp_arith | (cases m; simp_arith))

theorem rtE (vs : List PyJson) (hne : vs ≠ []) (rest : List Char) (fuel : Nat)
    (hfuel : (dumpsElems vs).length < fuel) :
    parseElems fuel (dumpsElems vs ++ ']' :: rest) = some (vs, rest) := by
  obtain ⟨f, rfl⟩ : ∃ f, fuel = f + 1 := ⟨fuel - 1, by omega⟩
  cases vs with
  | nil => exact absurd rfl hne
  | cons v0 vs' =>
    simp only [parseElems]
    cases vs' with
    | nil =>
      have h1 : parseValue f (dumpsElems [v0] ++ ']' :: rest) = some (v0, ']' :: rest) := by
        show parseValue f (dumpsVal v0 ++ ']' :: rest) = _
        exact rtV v0 (']' :: rest) f (by
          have hlen1 : (dumpsElems [v0]).length = (dumpsVal v0).length := by
            simp [dumpsElems]
          omega) (Or.inr (Or.inl rfl))
      rw [h1]
      dsimp only
      rw [skipWs_cons_not_ws (by decide)]
      dsimp only
      simp only [Char.reduceEq, reduceIte]
    | cons w ws =>
      have hlen := dumpsElems_cons_length v0 w ws
      have hv1 := one_le_dumpsVal_length v0
      have hshape : dumpsElems (v0 :: w :: ws) ++ ']' :: rest =
          dumpsVal v0 ++ (',' :: ' ' :: (dumpsElems (w :: ws) ++ ']' :: rest)) := by
        show (dumpsVal v0 ++ ',' :: ' ' :: dumpsElems (w :: ws)) ++ ']' :: rest = _
        simp [List.append_assoc]
      rw [hshape]
      rw [rtV v0 (',' :: ' ' :: (dumpsElems (w :: ws) ++ ']' :: rest)) f (by omega) (Or.inl rfl)]
      dsimp only
      rw [skipWs_cons_not_ws (by decide)]
      dsimp only
      simp only [Char.reduceEq, reduceIte]
      rw [parseElems_ws (by decide)]
      rw [rtE (w :: ws) (by simp) rest f (by omega)]
      rfl

termination_by sizeOf vs
decreasing_by all_goals (subst_vars; solve | simp_arith | (cases m; simp_arith))

theorem rtM (ms : List (String × PyJson)) (hne : ms ≠ []) (rest : List Char) (fuel : Nat)
    (hfuel : (dumpsMembers ms).length < fuel) :
    parseMembers fuel (dumpsMembers ms ++ '\x7d' :: rest) = some (ms, rest) := by
  obtain ⟨f, rfl⟩ : ∃ f, fuel = f + 1 := ⟨fuel - 1, by omega⟩
  cases ms with
  | nil => exact absurd rfl hne
  | cons m ms0 =>
    simp only [parseMembers]
    cases ms0 with
    | nil =>
      have hshape : dumpsMembers [m] ++ '\x7d' :: rest =
          '"' :: (encodeStringBody m.1 ++
            ('"' :: (':' :: ' ' :: (dumpsVal m.2 ++ '\x7d' :: rest)))) := by
        obtain ⟨k, v0⟩ := m
        have h1 : dumpsMembers [(k, v0)] = dumpsString k ++ ':' :: ' ' :: dumpsVal v0 := by
          simp [dumpsMembers]
        rw [h1]
        simp [dumpsString, List.cons_append, List.append_assoc]
      rw [hshape]
      rw [skipWs_cons_not_ws (by decide)]
      dsimp only
      simp only [Char.reduceEq, reduceIte]
      rw [psb_dumpsString m.1 _ _ (by
        have h1 := length_le_encodeBody_length m.1.data
        simp only [List.length_append, List.length_cons]
        have h2 : (encodeStringBody m.1).length =
            (m.1.data.foldr (fun c acc => encodeChar c ++ acc) []).length := rfl
        omega)]
      dsimp only
      rw [skipWs_cons_not_ws (by decide)]
      dsimp only
      simp only [Char.reduceEq, reduceIte]
      rw [parseValue_ws (by decide)]
      rw [rtV m.2 ('\x7d' :: rest) f (by
        have hlen1 : (dumpsMembers [m]).length =
            (dumpsString m.1).length + 2 + (dumpsVal m.2).length := by
          obtain ⟨k, v0⟩ := m
          simp [dumpsMembers]
          omega
        have hlen2 : 1 ≤ (dumpsString m.1).length := by simp [dumpsString]
        omega) (Or.inr (Or.inr rfl))]
      dsimp only
      rw [skipWs_cons_not_ws (by decide)]
      dsimp only
      simp only [Char.reduceEq, reduceIte]
    | cons m2 ms2 =>
      have hlen : (dumpsMembers (m :: m2 :: ms2)).length =
          (dumpsString m.1).length + 2 + (dumpsVal m.2).length + 2 +
            (dumpsMembers (m2 :: ms2)).length := by
        obtain ⟨k, v0⟩ := m
        obtain ⟨k2, v2⟩ := m2
        simp [dumpsMembers]
        omega
      have hv1 := one_le_dumpsVal_length m.2
      have hshape : dumpsMembers (m :: m2 :: ms2) ++ '\x7d' :: rest =
          '"' :: (encodeStringBody m.1 ++ ('"' :: (':' :: ' ' :: (dumpsVal m.2 ++
            ',' :: ' ' :: (dumpsMembers (m2 :: ms2) ++ '\x7d' :: rest))))) := by
        obtain ⟨k, v0⟩ := m
        have h1 : dumpsMembers ((k, v0) :: m2 :: ms2) =
            dumpsString k ++ ':' :: ' ' :: dumpsVal v0 ++ ',' :: ' ' :: dumpsMembers (m2 :: ms2) := by
          simp [dumpsMembers]
        rw [h1]
        simp [dumpsString, List.cons_append, List.append_assoc]
      rw [hshape]
      rw [skipWs_cons_not_ws (by decide)]
      dsimp only
      simp only [Char.reduceEq, reduceIte]
      rw [psb_dumpsString m.1 _ _ (by
        have h1 := length_le_encodeBody_length m.1.data
        simp only [List.length_append, List.length_cons]
        have h2 : (encodeStringBody m.1).length =
            (m.1.data.foldr (fun c acc => encodeChar c ++ acc) []).length := rfl
        omega)]
      dsimp only
      rw [skipWs_cons_not_ws (by decide)]
      dsimp only
      simp only [Char.reduceEq, reduceIte]
      rw [parseValue_ws (by decide)]
      rw [rtV m.2 (',' :: ' ' :: (dumpsMembers (m2 :: ms2) ++ '\x7d' :: rest)) f
        (by omega) (Or.inl rfl)]
      dsimp only
      rw [skipWs_cons_not_ws (by decide)]
      dsimp only
      simp only [Char.reduceEq, reduceIte]
      rw [parseMembers_ws (by decide)]
      rw [rtM (m2 :: ms2) (by simp) rest f (by omega)]
      rw [string_mk_data]
      rfl
termination_by sizeOf ms
decreasing_by all_goals (subst_vars; solve | simp_arith | (cases m; simp_arith))

end

/-- Parsing the serializer's output returns the original value: the
composition `json.loads(json.dumps(v))` is the identity in this model. -/
theorem pyloads_pydumps (v : PyJson) : pyloads (pydumps v) = some v := by
  have h := rtV v [] ((dumpsVal v).length + 1) (by omega) trivial
  rw [List.append_nil] at h
  simp only [pyloads]
  rw [show (pydumps v).data = dumpsVal v from rfl]
  rw [h]
  simp [skipWs]

/-! ## Embedding of the tool registry adapter (`bridge.py`, `mcp_client.py`)

`MCPTool` mirrors the dataclass of `mcp_client.py`; the conversion
functions and the tool-call processing loop mirror `LLMBridge` of
`bridge.py`.  The MCP connection check and the `_tools_cache` fast path
of `get_tools_for_openai` are outside the pure conversion the claims are
about, so the embedding takes the fetched tool list as its argument. -/

/-- A tool definition fetched from the MCP server (`MCPTool` in
`mcp_client.py`): `name`, `description`, `input_schema`. -/
structure MCPTool where
  name : String
  description : String
  input_schema : PyJson

/-- `LLMBridge.EXCLUDED_TOOLS_FOR_FC`: tools excluded from the native
function-calling format because they depend on server-side data. -/
def EXCLUDED_TOOLS_FOR_FC : List String :=
  ["fly_to_location", "add_marker_at_location", "switch_basemap_by_name",
   "set_weather_by_name", "set_time_by_name"]

/-- The `function` member of an OpenAI-format tool entry. -/
structure OpenAIFunctionDef where
  name : String
  description : String
  parameters : PyJson

/-- One entry of the list `get_tools_for_openai` builds:
`\x7b"type": "function", "function": \x7b...\x7d\x7d`. -/
structure OpenAITool where
  type : String
  function : OpenAIFunctionDef

/-- The dict literal built for one tool inside the loop of
`get_tools_for_openai`. -/
def openai_tool_of (t : MCPTool) : OpenAITool :=
  ⟨"function", ⟨t.name, t.description, t.input_schema⟩⟩

/-- The conversion loop of `LLMBridge.get_tools_for_openai`: skip tools
whose name is in `EXCLUDED_TOOLS_FOR_FC`, append an OpenAI-format entry
for every other tool. -/
def get_tools_for_openai (tools : List MCPTool) : List OpenAITool :=
  tools.foldl (fun acc t =>
    if t.name ∈ EXCLUDED_TOOLS_FOR_FC then acc
    else acc ++ [openai_tool_of t]) []

/-- `ToolCallStatus` of `bridge.py`. -/
inductive ToolCallStatus where
  | pending
  | success
  | error
deriving DecidableEq

/-- The `ToolCall` dataclass of `bridge.py`.  The `id`, `name` and
`arguments` fields hold whatever JSON-shaped values the model supplied
(Python annotates them `str`/`dict` but never checks). -/
structure ToolCall where
  id : PyJson
  name : PyJson
  arguments : PyJson
  status : ToolCallStatus
  result : Option PyJson
  error : Option PyJson

/-- One element of the `tool_calls` list handed to
`process_tool_calls`, in the OpenAI wire shape
`\x7b"id": ..., "function": \x7b"name": ..., "arguments": ...\x7d\x7d`.
A `none` field stands for an absent key, on which the source's
`dict.get` defaults fire. -/
structure ToolCallDict where
  id : Option PyJson
  function_name : Option PyJson
  function_arguments : Option PyJson

/-- `tc.get("id", "")`. -/
def tc_id_of (tc : ToolCallDict) : PyJson := tc.id.getD (.str "")

/-- `func.get("name", "")`. -/
def tc_parsed_name (tc : ToolCallDict) : PyJson := tc.function_name.getD (.str "")

/-- `func.get("arguments", \x7b\x7d)` followed by the string-argument
handling of `process_tool_calls`: a string is parsed with `json.loads`,
a `JSONDecodeError` degrades to the empty dict, anything else is kept
as-is. -/
def tc_parsed_args (tc : ToolCallDict) : PyJson :=
  match tc.function_arguments.getD (.obj []) with
  | .str s => (pyloads s).getD (.obj [])
  | other => other

/-- The body of the loop in `LLMBridge.process_tool_calls` for one tool
call.  `execute_tool` is the bridge's execution channel
(`LLMBridge.execute_tool`), which catches every exception and always
returns a result dict, so it is modelled as a total oracle from the
call's name and arguments to the members of that dict. -/
def process_one_tool_call (execute_tool : PyJson → PyJson → List (String × PyJson))
    (tc : ToolCallDict) : ToolCall :=
  let tool_call : ToolCall :=
    ⟨tc_id_of tc, tc_parsed_name tc, tc_parsed_args tc, .pending, none, none⟩
  let result := execute_tool (tc_parsed_name tc) (tc_parsed_args tc)
  if (match pyDictGet result "success" with
      | some v => pyTruthy v
      | none => true) && (pyDictGet result "error").isNone then
    { tool_call with status := .success, result := some (.obj result) }
  else
    { tool_call with status := .error,
                     error := some ((pyDictGet result "error").getD (.str "Unknown error")) }

/-- `LLMBridge.process_tool_calls`: process every entry of the list in
order, appending one executed `ToolCall` record per entry.  The second
component logs each `execute_tool` dispatch (name, parsed arguments) in
the order performed, so that theorems can speak about which calls were
executed. -/
def process_tool_calls (execute_tool : PyJson → PyJson → List (String × PyJson))
    (tool_calls : List ToolCallDict) : List ToolCall × List (PyJson × PyJson) :=
  tool_calls.foldl (fun acc tc =>
    (acc.1 ++ [process_one_tool_call execute_tool tc],
     acc.2 ++ [(tc_parsed_name tc, tc_parsed_args tc)])) ([], [])

/-- Modelled from the spec: the native-path orchestration step (spec
section 4.4, step 3, and the tie-break policy "only the first tool call
in a multi-call native response is executed").  The orchestrator that
consumes a native model response is code of this repository that is not
under `src/` — `process_tool_calls` has no caller there — so the turn
step is taken from the spec's words: of the model's proposed tool-call
list, only the first element is handed to the bridge for execution and
the later ones are discarded. -/
def native_turn_tool_dispatch (execute_tool : PyJson → PyJson → List (String × PyJson))
    (tool_calls : List ToolCallDict) : List ToolCall × List (PyJson × PyJson) :=
  match tool_calls with
  | [] => ([], [])
  | tc :: _ => process_tool_calls execute_tool [tc]

/-! ## Embedding of the credential manager (`llm_providers.py`, `VertexAIAuth`) -/

/-- `VertexAIAuth.__init__`.  The four string arguments keep their
Python truthiness semantics (the empty string is the unset default).
`loadBundle` is the oracle for the first branch's credential loading
(`json.load` on a file path or `json.loads` on an inline string); it
returns the bundle's members, or `none` for a `JSONDecodeError`.  The
result is the `self.credentials` dict, or the exception message the
constructor raises. -/
def vertexAIAuthInit (service_account_json client_email private_key project_id : String)
    (loadBundle : String → Option (List (String × PyJson))) :
    Except String (List (String × PyJson)) :=
  if service_account_json ≠ "" then
    match loadBundle service_account_json with
    | some creds => .ok creds
    | none => .error "JSONDecodeError"
  else if client_email ≠ "" ∧ private_key ≠ "" then
    .ok [("client_email", .str client_email), ("private_key", .str private_key),
         ("project_id", .str project_id)]
  else
    .error "ValueError: Vertex AI needs a service account JSON or email and private key"

/-- `json.loads` restricted to the inline-JSON branch of
`VertexAIAuth.__init__`: the parse of the string, kept only when it is
a JSON object (the constructor then reads the bundle's members). -/
def loads_object_bundle (s : String) : Option (List (String × PyJson)) :=
  match pyloads s with
  | some (.obj kvs) => some kvs
  | _ => none

/-- The token cache of a `VertexAIAuth` instance: `self.access_token`
(`None` before the first exchange) and `self.token_expiry` (0 before
the first exchange). -/
structure VertexAIAuthState where
  access_token : Option String
  token_expiry : Int

/-- `VertexAIAuth.get_access_token`.  Wall-clock reads are modelled by
the integer `now` (the two `time.time()` calls within one invocation at
the same instant).  The token-endpoint exchange is the oracle pair
`exchange = (access_token, expires_in)`, with the source's
`data.get("expires_in", 3600)` default.  The result is the new state,
the returned token, and the number of exchanges performed (0 or 1). -/
def get_access_token (st : VertexAIAuthState) (now : Int)
    (exchange : String × Option Int) : VertexAIAuthState × String × Nat :=
  if ((match st.access_token with
      | some t => t != ""
      | none => false) && decide (now < st.token_expiry - 60)) = true then
    (st, st.access_token.getD "", 0)
  else
    let tok := exchange.1
    (⟨some tok, now + (exchange.2.getD 3600)⟩, tok, 1)

/-! ## Embedding of the Vertex AI response normalization
(`llm_providers.py`, `LLMClient._chat_with_tools_vertex_ai`) -/

/-- One part of the first candidate's `content.parts` in a Vertex AI
response: a text part, a function-call part (with its optional `args`
object), or any other part kind the loop ignores. -/
inductive GeminiPart where
  | text (s : String)
  | functionCall (name : String) (args : Option PyJson)
  | other

/-- One entry of the normalized `tool_calls` list the Vertex path
builds: `\x7b"id": ..., "type": "function", "function": \x7b"name": ...,
"arguments": ...\x7d\x7d`, with `arguments` the `json.dumps` of the
part's `args`. -/
structure OpenAIToolCall where
  id : String
  type : String
  function_name : String
  function_arguments : String

/-- The response-parsing loop of `_chat_with_tools_vertex_ai`: iterate
over the enumerated parts, concatenating text parts into `text_content`
and appending one normalized call per function-call part, with the
positional id `"call_" ++ i` and `json.dumps(fc.get("args", \x7b\x7d))`
as the arguments string. -/
def vertex_parse_parts (parts : List GeminiPart) : String × List OpenAIToolCall :=
  parts.enum.foldl (fun acc ip =>
    match ip.2 with
    | .text s => (acc.1 ++ s, acc.2)
    | .functionCall n args =>
      (acc.1, acc.2 ++ [⟨"call_" ++ toString ip.1, "function", n,
        pydumps (args.getD (.obj []))⟩])
    | .other => acc) ("", [])

/-- The normalized result shape (`ChatResponse` of `llm_providers.py`)
restricted to the fields the Vertex path fills. -/
structure ChatResponse where
  content : String
  tool_calls : Option (List OpenAIToolCall)
  finish_reason : String

/-- Assembly of the `ChatResponse` at the end of
`_chat_with_tools_vertex_ai`: the candidate's own `finishReason`
(default `"STOP"`) is overridden by `"tool_calls"` whenever at least
one function-call part was found, and an empty `tool_calls` list
becomes `None`. -/
def vertex_chat_response (parts : List GeminiPart)
    (backendFinishReason : Option String) : ChatResponse :=
  let parsed := vertex_parse_parts parts
  { content := parsed.1,
    tool_calls := if parsed.2.isEmpty then none else some parsed.2,
    finish_reason := if parsed.2.isEmpty then backendFinishReason.getD "STOP"
                     else "tool_calls" }

/-! ## Embedding of the orchestration loop's structured-text path
(`server.py`, `ChatAssistant._chat_with_llm`) and the history bound -/

/-- One entry of `self.conversation_history`:
`\x7b"role": ..., "content": ...\x7d`. -/
structure Turn where
  role : String
  content : PyJson

/-- Python's negative-index slice `l[-k:]`: the last `k` elements —
except that `l[-0:]` is the whole list. -/
def pySliceLast (l : List Turn) (k : Nat) : List Turn :=
  if k = 0 then l else l.drop (l.length - k)

/-- The history update of `_chat_with_llm` in conversation mode: append
the user turn and the assistant turn, then truncate to the last
`max_history * 2` entries when the bound is exceeded. -/
def updateHistory (max_history : Nat) (hist : List Turn) (u a : Turn) : List Turn :=
  let h := hist ++ [u, a]
  if h.length > max_history * 2 then pySliceLast h (max_history * 2) else h

/-- `ChatAssistant.max_history` as set in `__init__`. -/
def max_history_default : Nat := 10

/-- Python's conflation of an absent key and an explicit `null` value:
`result.get(k)` returns `None` in both cases. -/
def null_to_none : Option PyJson → Option PyJson
  | some .null => none
  | x => x

/-- The dict `_chat_with_llm` returns on its success and
JSON-parse-failure paths.  A `none` in `tool_call`/`thinking` is
Python's `None` (or, in the failure dict, the absent key). -/
structure ChatOutput where
  message : PyJson
  tool_call : Option PyJson
  thinking : Option PyJson
  llm_raw : Option String

/-- `ChatAssistant._chat_with_llm` from the point where the LLM reply
`response` has been received (the transport call itself is outside this
model): parse it as JSON; on a `JSONDecodeError` return the raw text as
the message with no tool call; on a dict result update the history (in
conversation mode only) and build the reply dict from the parsed
fields.  On a non-dict JSON value `result.get` raises `AttributeError`
and the generic handler returns `None` — but in conversation mode the
user turn has already been appended at that point (the exception is
raised while evaluating the argument of the second `append`), so the
history keeps that extra entry and the truncation never runs.  The
result pairs the returned value with the new
`self.conversation_history`. -/
def chat_with_llm (max_history : Nat) (mode : String) (hist : List Turn)
    (user_input response : String) : Option ChatOutput × List Turn :=
  match pyloads response with
  | none => (some ⟨.str response, none, none, none⟩, hist)
  | some (.obj kvs) =>
    let hist2 := if mode = "conversation" then
        updateHistory max_history hist ⟨"user", .str user_input⟩
          ⟨"assistant", (pyDictGet kvs "message").getD (.str "")⟩
      else hist
    (some ⟨(pyDictGet kvs "message").getD (.str "..."),
           null_to_none (pyDictGet kvs "tool_call"),
           null_to_none (pyDictGet kvs "thinking"),
           some response⟩, hist2)
  | some _ =>
    (none, if mode = "conversation" then hist ++ [⟨"user", .str user_input⟩] else hist)

/-! ## Embedding of the session-summary mode choice
(`storage.py`, `get_recent_sessions`) -/

/-- The per-session mode decision of `get_recent_sessions`, applied to
the `mode` column of the session's logged messages: `cmd_count` and
`conv_count` are the `SUM(CASE WHEN mode = ... THEN 1 ELSE 0 END)`
aggregates, and the if-chain is the source's decision between
`"command"` and `"conversation"`. -/
def session_mode (messageModes : List (Option String)) : String :=
  let cmd_count := (messageModes.filter (fun m => m = some "command")).length
  let conv_count := (messageModes.filter (fun m => m = some "conversation")).length
  if cmd_count > 0 ∧ conv_count = 0 then "command"
  else if conv_count > 0 ∧ cmd_count = 0 then "conversation"
  else if cmd_count = 0 ∧ conv_count = 0 then "conversation"
  else if cmd_count ≥ conv_count then "command"
  else "conversation"

/-! ## Characterizations of the loop-shaped definitions -/

theorem get_tools_for_openai_acc (tools : List MCPTool) :
    ∀ acc : List OpenAITool,
      tools.foldl (fun acc t =>
        if t.name ∈ EXCLUDED_TOOLS_FOR_FC then acc else acc ++ [openai_tool_of t]) acc =
      acc ++ (tools.filter (fun t => decide (t.name ∉ EXCLUDED_TOOLS_FOR_FC))).map openai_tool_of := by
  induction tools with
  | nil => intro acc; simp
  | cons t ts ih =>
    intro acc
    simp only [List.foldl_cons, List.filter_cons]
    by_cases h : t.name ∈ EXCLUDED_TOOLS_FOR_FC
    · rw [if_pos h]
      simp only [h, decide_not, decide_eq_true_eq]
      rw [ih acc]
      simp [h]
    · rw [if_neg h]
      rw [ih (acc ++ [openai_tool_of t])]
      simp [h]

theorem get_tools_for_openai_eq (tools : List MCPTool) :
    get_tools_for_openai tools =
      (tools.filter (fun t => decide (t.name ∉ EXCLUDED_TOOLS_FOR_FC))).map openai_tool_of := by
  have h := get_tools_for_openai_acc tools []
  simpa [get_tools_for_openai] using h

theorem process_tool_calls_acc (execute_tool : PyJson → PyJson → List (String × PyJson))
    (tcs : List ToolCallDict) :
    ∀ acc : List ToolCall × List (PyJson × PyJson),
      tcs.foldl (fun acc tc =>
        (acc.1 ++ [process_one_tool_call execute_tool tc],
         acc.2 ++ [(tc_parsed_name tc, tc_parsed_args tc)])) acc =
      (acc.1 ++ tcs.map (process_one_tool_call execute_tool),
       acc.2 ++ tcs.map (fun tc => (tc_parsed_name tc, tc_parsed_args tc))) := by
  induction tcs with
  | nil => intro acc; simp
  | cons tc ts ih =>
    intro acc
    simp only [List.foldl_cons, List.map_cons]
    rw [ih]
    simp

theorem process_tool_calls_eq (execute_tool : PyJson → PyJson → List (String × PyJson))
    (tcs : List ToolCallDict) :
    process_tool_calls execute_tool tcs =
      (tcs.map (process_one_tool_call execute_tool),
       tcs.map (fun tc => (tc_parsed_name tc, tc_parsed_args tc))) := by
  have h := process_tool_calls_acc execute_tool tcs ([], [])
  simpa [process_tool_calls] using h

theorem updateHistory_eq_drop (N : Nat) (hist : List Turn) (u a : Turn) (hN : 1 ≤ N) :
    updateHistory N hist u a =
      (hist ++ [u, a]).drop ((hist ++ [u, a]).length - 2 * N) := by
  unfold updateHistory pySliceLast
  by_cases h : (hist ++ [u, a]).length > N * 2
  · rw [if_pos h, if_neg (by omega)]
    congr 1
    omega
  · rw [if_neg h]
    have h0 : (hist ++ [u, a]).length - 2 * N = 0 := by omega
    rw [h0, List.drop_zero]

theorem updateHistory_length_le (N : Nat) (hist : List Turn) (u a : Turn)
    (hN : 1 ≤ N) (hlen : hist.length ≤ 2 * N) :
    (updateHistory N hist u a).length ≤ 2 * N := by
  unfold updateHistory pySliceLast
  by_cases h : (hist ++ [u, a]).length > N * 2
  · rw [if_pos h, if_neg (by omega)]
    simp only [List.length_drop]
    omega
  · rw [if_neg h]
    simp only [List.length_append] at h ⊢
    omega

theorem string_foldl_append (l : List String) :
    ∀ a : String, l.foldl (fun r s => r ++ s) a = a ++ String.join l := by
  induction l with
  | nil =>
    intro a
    rw [List.foldl_nil, show String.join [] = "" from rfl, String.append_empty]
  | cons s l ih =>
    intro a
    rw [List.foldl_cons, ih (a ++ s)]
    rw [show String.join (s :: l) = List.foldl (fun r s => r ++ s) ("" ++ s) l from rfl]
    rw [ih ("" ++ s), String.empty_append, String.append_assoc]

theorem string_join_cons (s : String) (l : List String) :
    String.join (s :: l) = s ++ String.join l := by
  rw [show String.join (s :: l) = List.foldl (fun r s => r ++ s) ("" ++ s) l from rfl]
  rw [string_foldl_append l ("" ++ s), String.empty_append]

theorem vertex_parse_parts_acc (parts : List GeminiPart) :
    ∀ (i : Nat) (acc : String × List OpenAIToolCall),
      (List.enumFrom i parts).foldl (fun acc ip =>
        match ip.2 with
        | .text s => (acc.1 ++ s, acc.2)
        | .functionCall n args =>
          (acc.1, acc.2 ++ [⟨"call_" ++ toString ip.1, "function", n,
            pydumps (args.getD (.obj []))⟩])
        | .other => acc) acc =
      (acc.1 ++ String.join (parts.map (fun p => match p with
          | .text s => s
          | _ => "")),
       acc.2 ++ (List.enumFrom i parts).filterMap (fun ip =>
         match ip.2 with
         | .functionCall n args => some ⟨"call_" ++ toString ip.1, "function", n,
             pydumps (args.getD (.obj []))⟩
         | _ => none)) := by
  induction parts with
  | nil =>
    intro i acc
    rw [show List.enumFrom i ([] : List GeminiPart) = [] from rfl]
    simp [show String.join [] = "" from rfl, String.append_empty]
  | cons p ps ih =>
    intro i acc
    rw [show List.enumFrom i (p :: ps) = (i, p) :: List.enumFrom (i + 1) ps from rfl]
    rw [List.foldl_cons, List.filterMap_cons, List.map_cons]
    cases p with
    | text s =>
      dsimp only
      rw [ih (i + 1)]
      simp [string_join_cons, String.append_assoc]
    | functionCall n args =>
      dsimp only
      rw [ih (i + 1)]
      simp [string_join_cons, String.empty_append, List.append_assoc]
    | other =>
      dsimp only
      rw [ih (i + 1)]
      simp [string_join_cons, String.empty_append]

theorem vertex_call_mem (parts : List GeminiPart) (n : String) (args : Option PyJson)
    (hmem : GeminiPart.functionCall n args ∈ parts) :
    ∀ i : Nat,
      (List.enumFrom i parts).filterMap (fun ip =>
        match ip.2 with
        | .functionCall n args => some (⟨"call_" ++ toString ip.1, "function", n,
            pydumps (args.getD (.obj []))⟩ : OpenAIToolCall)
        | _ => none) ≠ [] := by
  induction parts with
  | nil => cases hmem
  | cons p ps ih =>
    intro i
    rw [show List.enumFrom i (p :: ps) = (i, p) :: List.enumFrom (i + 1) ps from rfl]
    rw [List.filterMap_cons]
    cases p with
    | functionCall n' args' => dsimp only; simp
    | text s =>
      dsimp only
      rcases List.mem_cons.mp hmem with heq | hmem'
      · cases heq
      · exact ih hmem' (i + 1)
    | other =>
      dsimp only
      rcases List.mem_cons.mp hmem with heq | hmem'
      · cases heq
      · exact ih hmem' (i + 1)

/-! ## The claims -/

/-- C1: in a native-path turn, only the first tool call of the model's
list is executed: the dispatch log holds exactly the first call's
(name, arguments) pair, and the turn's result is exactly the one record
built for that first call. -/
theorem c1_first_call_only (execute_tool : PyJson → PyJson → List (String × PyJson))
    (tc : ToolCallDict) (rest : List ToolCallDict) :
    (native_turn_tool_dispatch execute_tool (tc :: rest)).2 =
      [(tc_parsed_name tc, tc_parsed_args tc)] ∧
    (native_turn_tool_dispatch execute_tool (tc :: rest)).1 =
      [process_one_tool_call execute_tool tc] := by
  constructor <;> simp [native_turn_tool_dispatch, process_tool_calls]

/-- C2: the OpenAI-format conversion excludes exactly the tools whose
name is in the configured excluded set; every other tool appears, as a
"function"-typed entry whose name, description and parameters come from
the definition's name, description and input schema. -/
theorem c2_openai_conversion_exact (tools : List MCPTool) :
    (∀ t ∈ tools,
      (openai_tool_of t ∈ get_tools_for_openai tools ↔
        ¬t.name ∈ EXCLUDED_TOOLS_FOR_FC)) ∧
    (∀ o ∈ get_tools_for_openai tools,
      o.type = "function" ∧
      ∃ t ∈ tools, ¬t.name ∈ EXCLUDED_TOOLS_FOR_FC ∧
        o.function.name = t.name ∧ o.function.description = t.description ∧
        o.function.parameters = t.input_schema) := by
  rw [get_tools_for_openai_eq]
  constructor
  · intro t ht
    constructor
    · intro hmem
      rw [List.mem_map] at hmem
      obtain ⟨t', ht', heq⟩ := hmem
      rw [List.mem_filter] at ht'
      have hname : t'.name = t.name := congrArg (fun o => o.function.name) heq
      have := ht'.2
      rw [decide_eq_true_eq] at this
      rw [hname] at this
      exact this
    · intro hnot
      rw [List.mem_map]
      exact ⟨t, List.mem_filter.mpr ⟨ht, by simp [hnot]⟩, rfl⟩
  · intro o ho
    rw [List.mem_map] at ho
    obtain ⟨t, ht, heq⟩ := ho
    rw [List.mem_filter, decide_eq_true_eq] at ht
    subst heq
    exact ⟨rfl, t, ht.1, ht.2, rfl, rfl, rfl⟩

/-- C3 counterexample: a session whose messages hold one command-mode
and one conversation-mode entry (a tie) is summarized as "command",
not "conversation" as the spec's tie-break rule states. -/
theorem c3_tie_counterexample :
    session_mode [some "command", some "conversation"] = "command" ∧
    ¬session_mode [some "command", some "conversation"] = "conversation" := by
  constructor
  · decide
  · decide

/-- C3 amended: for a session with both command-mode and
conversation-mode entries, the dominant mode is the one with the larger
count, and a tie goes to "command" (the source's final `elif
cmd_count >= conv_count` branch). -/
theorem c3_majority_tie_to_command (modes : List (Option String))
    (hcmd : 0 < (modes.filter (fun m => m = some "command")).length)
    (hconv : 0 < (modes.filter (fun m => m = some "conversation")).length) :
    session_mode modes =
      if (modes.filter (fun m => m = some "conversation")).length ≤
          (modes.filter (fun m => m = some "command")).length
      then "command" else "conversation" := by
  unfold session_mode
  rw [if_neg (by omega), if_neg (by omega), if_neg (by omega)]

theorem c3_majority_witness :
    session_mode [some "command", some "conversation"] = "command" ∧
    0 < ([some "command", some "conversation"].filter (fun m => m = some "command")).length ∧
    0 < ([some "command", some "conversation"].filter (fun m => m = some "conversation")).length := by
  refine ⟨?_, by decide, by decide⟩
  rw [c3_majority_tie_to_command [some "command", some "conversation"] (by decide) (by decide)]
  decide

/-- C4: a cached token whose expiry is more than 60 seconds away is
returned unchanged — twice in a row, with no exchange — while a call
with the token absent, empty, or within 60 seconds of expiry performs
exactly one exchange and caches the new token with its lifetime. -/
theorem c4_token_cache (st : VertexAIAuthState) (v : String) (now1 now2 : Int)
    (ex1 ex2 : String × Option Int)
    (hv : st.access_token = some v) (hne : v ≠ "")
    (h1 : now1 < st.token_expiry - 60) (h2 : now2 < st.token_expiry - 60) :
    (get_access_token st now1 ex1 = (st, v, 0) ∧
     get_access_token (get_access_token st now1 ex1).1 now2 ex2 = (st, v, 0)) ∧
    (∀ (st' : VertexAIAuthState) (now : Int) (ex : String × Option Int),
      st'.access_token = none ∨ st'.access_token = some "" ∨
        st'.token_expiry - 60 ≤ now →
      get_access_token st' now ex =
        (⟨some ex.1, now + ex.2.getD 3600⟩, ex.1, 1)) := by
  have hcached : ∀ (now : Int) (ex : String × Option Int),
      now < st.token_expiry - 60 → get_access_token st now ex = (st, v, 0) := by
    intro now ex hnow
    unfold get_access_token
    rw [hv]
    have hb : (v != "") = true := bne_iff_ne.mpr hne
    dsimp only
    rw [hb]
    simp [hnow]
  refine ⟨⟨hcached now1 ex1 h1, ?_⟩, ?_⟩
  · rw [hcached now1 ex1 h1]
    exact hcached now2 ex2 h2
  · intro st' now ex hcase
    unfold get_access_token
    rw [if_neg ?_]
    intro hcond
    rw [Bool.and_eq_true] at hcond
    rcases hcase with hnone | hempty | hexp
    · rw [hnone] at hcond
      exact Bool.false_ne_true hcond.1
    · rw [hempty] at hcond
      have := hcond.1
      rw [bne_iff_ne] at this
      exact this rfl
    · have := hcond.2
      rw [decide_eq_true_eq] at this
      omega

theorem c4_token_cache_witness :
    (get_access_token ⟨some "tok", 1000⟩ 100 ("new", none) =
       (⟨some "tok", 1000⟩, "tok", 0) ∧
     get_access_token (get_access_token ⟨some "tok", 1000⟩ 100 ("new", none)).1
        200 ("other", none) = (⟨some "tok", 1000⟩, "tok", 0)) ∧
    get_access_token ⟨none, 0⟩ 500 ("new", some 100) = (⟨some "new", 500 + 100⟩, "new", 1) := by
  have h := c4_token_cache ⟨some "tok", 1000⟩ "tok" 100 200 ("new", none) ("other", none)
    rfl (by decide) (by decide) (by decide)
  exact ⟨h.1, h.2 ⟨none, 0⟩ 500 ("new", some 100) (Or.inl rfl)⟩

/-- C5 counterexample: with both credential forms supplied — a parseable
inline JSON bundle and a nonempty (email, key) pair — initialization
succeeds with the bundle instead of failing with a configuration
error. -/
theorem c5_both_forms_counterexample :
    vertexAIAuthInit "\x7b\"client_email\": \"a\"\x7d" "e@example.com" "key" "proj"
        loads_object_bundle = .ok [("client_email", .str "a")] ∧
    ¬("\x7b\"client_email\": \"a\"\x7d" : String) = "" ∧
    ¬("e@example.com" : String) = "" ∧ ¬("key" : String) = "" := by
  refine ⟨rfl, by decide, by decide, by decide⟩

/-- C5 amended: initialization succeeds exactly when a bundle is
supplied and loads, or when no bundle is supplied and both the email
and the key are; the configuration `ValueError` is raised exactly when
no bundle is supplied and the email or the key is missing.  A supplied
bundle takes precedence: the (email, key) pair is then never
consulted. -/
theorem c5_credential_forms (saj email key proj : String)
    (loadBundle : String → Option (List (String × PyJson))) :
    ((∃ creds, vertexAIAuthInit saj email key proj loadBundle = .ok creds) ↔
      ((¬saj = "" ∧ (loadBundle saj).isSome = true) ∨
       (saj = "" ∧ ¬email = "" ∧ ¬key = ""))) ∧
    (vertexAIAuthInit saj email key proj loadBundle =
        .error "ValueError: Vertex AI needs a service account JSON or email and private key" ↔
      (saj = "" ∧ (email = "" ∨ key = ""))) := by
  unfold vertexAIAuthInit
  by_cases hs : saj = ""
  · rw [if_neg (by simp [hs])]
    by_cases he : email = ""
    · rw [if_neg (by simp [he])]
      constructor
      · constructor
        · intro ⟨creds, hc⟩; cases hc
        · rintro (⟨h, _⟩ | ⟨_, h, _⟩) <;> exact absurd hs (by simp_all)
      · constructor
        · intro _; exact ⟨hs, Or.inl he⟩
        · intro _; rfl
    · by_cases hk : key = ""
      · rw [if_neg (by simp [hk])]
        constructor
        · constructor
          · intro ⟨creds, hc⟩; cases hc
          · rintro (⟨h, _⟩ | ⟨_, _, h⟩) <;> simp_all
        · constructor
          · intro _; exact ⟨hs, Or.inr hk⟩
          · intro _; rfl
      · rw [if_pos ⟨he, hk⟩]
        constructor
        · constructor
          · intro _; exact Or.inr ⟨hs, he, hk⟩
          · intro _; exact ⟨_, rfl⟩
        · constructor
          · intro hc; cases hc
          · rintro ⟨_, he' | hk'⟩
            · exact absurd he' he
            · exact absurd hk' hk
  · rw [if_pos hs]
    cases hload : loadBundle saj with
    | some creds =>
      constructor
      · constructor
        · intro _; exact Or.inl ⟨hs, rfl⟩
        · intro _; exact ⟨creds, rfl⟩
      · constructor
        · intro hc; cases hc
        · rintro ⟨hs', _⟩; exact absurd hs' hs
    | none =>
      constructor
      · constructor
        · intro ⟨creds, hc⟩; cases hc
        · rintro (⟨_, hsome⟩ | ⟨hs', _⟩)
          · simp at hsome
          · exact absurd hs' hs
      · constructor
        · intro hc; injection hc with hmsg; exact absurd hmsg (by decide)
        · rintro ⟨hs', _⟩; exact absurd hs' hs

/-- C6: when the model reply does not parse as JSON, the structured-text
path returns the raw reply text as the message, with no tool call, no
thinking, no raw-reply field, and the history unchanged — a value, not
an exception. -/
theorem c6_nonjson_degrades (max_history : Nat) (mode : String) (hist : List Turn)
    (user_input response : String) (h : pyloads response = none) :
    chat_with_llm max_history mode hist user_input response =
      (some ⟨.str response, none, none, none⟩, hist) := by
  unfold chat_with_llm
  rw [h]

theorem c6_nonjson_witness :
    pyloads "hello" = none ∧
    chat_with_llm 10 "conversation" [] "hi" "hello" =
      (some ⟨.str "hello", none, none, none⟩, []) :=
  ⟨rfl, c6_nonjson_degrades 10 "conversation" [] "hi" "hello" rfl⟩

/-- The history invariant on the paths that keep it: when the LLM
reply fails to parse or parses as a JSON object, a turn keeps the
stored history within `2 * max_history` entries, and the history after
the turn is either unchanged or the most recent entries — in order —
of the old history followed by the new user and assistant turns, the
oldest entries having been dropped from the front.  The remaining path
(a reply parsing as non-object JSON in conversation mode) breaks the
bound: see `c7_bound_violation`. -/
theorem history_bound_on_parsed_turns (max_history : Nat) (mode : String) (hist : List Turn)
    (user_input response : String)
    (hN : 1 ≤ max_history) (hlen : hist.length ≤ 2 * max_history)
    (hresp : (∃ kvs, pyloads response = some (.obj kvs)) ∨ pyloads response = none) :
    (chat_with_llm max_history mode hist user_input response).2.length ≤ 2 * max_history ∧
    ((chat_with_llm max_history mode hist user_input response).2 = hist ∨
     ∃ a : Turn,
       (chat_with_llm max_history mode hist user_input response).2 =
         (hist ++ [⟨"user", .str user_input⟩, a]).drop
           ((hist ++ [⟨"user", .str user_input⟩, a]).length - 2 * max_history)) := by
  unfold chat_with_llm
  cases hp : pyloads response with
  | none => exact ⟨hlen, Or.inl rfl⟩
  | some v =>
    have hobj : ∃ kvs, v = PyJson.obj kvs := by
      rcases hresp with ⟨kvs, hk⟩ | hn
      · rw [hp] at hk
        exact ⟨kvs, Option.some.inj hk⟩
      · rw [hp] at hn
        cases hn
    obtain ⟨kvs, rfl⟩ := hobj
    dsimp only
    by_cases hm : mode = "conversation"
    · rw [if_pos hm]
      exact ⟨updateHistory_length_le _ _ _ _ hN hlen,
        Or.inr ⟨⟨"assistant", (pyDictGet kvs "message").getD (.str "")⟩,
          updateHistory_eq_drop _ _ _ _ hN⟩⟩
    · rw [if_neg hm]
      exact ⟨hlen, Or.inl rfl⟩

/-- C7: the history bound fails on the non-object-JSON path.  Starting
from a conversation history already holding `2 * max_history = 2`
entries — the bound the source means to keep — a conversation-mode
turn whose reply parses as non-object JSON (here the array `[1]`)
appends the user turn while building the assistant entry, then raises
before truncating, so the turn completes with the stored history three
entries long, exceeding the bound. -/
theorem c7_bound_violation :
    (chat_with_llm 1 "conversation" [⟨"user", .str "a"⟩, ⟨"assistant", .str "b"⟩]
        "hi" "[1]").2 =
      [⟨"user", .str "a"⟩, ⟨"assistant", .str "b"⟩, ⟨"user", .str "hi"⟩] ∧
    2 * 1 <
      (chat_with_llm 1 "conversation" [⟨"user", .str "a"⟩, ⟨"assistant", .str "b"⟩]
        "hi" "[1]").2.length := by
  constructor
  · rfl
  · rw [show (chat_with_llm 1 "conversation" [⟨"user", .str "a"⟩, ⟨"assistant", .str "b"⟩]
        "hi" "[1]").2 =
      [⟨"user", .str "a"⟩, ⟨"assistant", .str "b"⟩, ⟨"user", .str "hi"⟩] from rfl]
    decide

/-- C8: the Vertex normalization concatenates all text parts into the
content field; each function-call part becomes a generic tool-call
entry with the synthesized positional id `"call_" ++ i` and the
JSON-serialized arguments; and whenever at least one function-call
part exists, the finish reason is the uniform "tool_calls" value no
matter what the backend reported. -/
theorem c8_vertex_normalization (parts : List GeminiPart) (backendFR : Option String) :
    (vertex_chat_response parts backendFR).content =
      String.join (parts.map (fun p => match p with
        | .text s => s
        | _ => "")) ∧
    (vertex_chat_response parts backendFR).tool_calls =
      (if (parts.enum.filterMap (fun ip =>
            match ip.2 with
            | .functionCall n args => some (⟨"call_" ++ toString ip.1, "function", n,
                pydumps (args.getD (.obj []))⟩ : OpenAIToolCall)
            | _ => none)).isEmpty then none
       else some (parts.enum.filterMap (fun ip =>
            match ip.2 with
            | .functionCall n args => some (⟨"call_" ++ toString ip.1, "function", n,
                pydumps (args.getD (.obj []))⟩ : OpenAIToolCall)
            | _ => none))) ∧
    (∀ (n : String) (args : Option PyJson), GeminiPart.functionCall n args ∈ parts →
      (vertex_chat_response parts backendFR).finish_reason = "tool_calls") := by
  have hpp : vertex_parse_parts parts =
      (String.join (parts.map (fun p => match p with
          | .text s => s
          | _ => "")),
       (List.enumFrom 0 parts).filterMap (fun ip =>
         match ip.2 with
         | .functionCall n args => some ⟨"call_" ++ toString ip.1, "function", n,
             pydumps (args.getD (.obj []))⟩
         | _ => none)) := by
    unfold vertex_parse_parts
    rw [show parts.enum = List.enumFrom 0 parts from rfl]
    rw [vertex_parse_parts_acc parts 0]
    rw [String.empty_append, List.nil_append]
  refine ⟨?_, ?_, ?_⟩
  · simp only [vertex_chat_response, hpp]
  · simp only [vertex_chat_response, hpp]
    rfl
  · intro n args hmem
    simp only [vertex_chat_response, hpp]
    have hne := vertex_call_mem parts n args hmem 0
    rw [if_neg (by simp only [List.isEmpty_iff]; exact hne)]

/-- C9: an arguments mapping with distinct keys (a valid JSON object,
as every Python dict is), serialized by the Vertex convention's
`json.dumps` and handed to the adapter's string-argument parsing step,
comes back as the original mapping. -/
theorem c9_arguments_round_trip (kvs : List (String × PyJson))
    (hkeys : (kvs.map Prod.fst).Nodup) :
    tc_parsed_args ⟨none, none, some (.str (pydumps (.obj kvs)))⟩ = .obj kvs := by
  simp [tc_parsed_args, pyloads_pydumps (.obj kvs)]

theorem c9_round_trip_witness :
    (([("longitude", PyJson.int 116), ("latitude", PyJson.int 40)]).map Prod.fst).Nodup ∧
    tc_parsed_args ⟨none, none,
        some (.str (pydumps (.obj [("longitude", .int 116), ("latitude", .int 40)])))⟩ =
      .obj [("longitude", .int 116), ("latitude", .int 40)] :=
  ⟨by decide, c9_arguments_round_trip [("longitude", .int 116), ("latitude", .int 40)] (by decide)⟩

/-- C10: `process_tool_calls` returns one record per input entry in
order (the map of the per-call step over the inputs), and every
record's status is terminal: success exactly when the execution result
has no error key and no falsy success flag, error otherwise — never
pending. -/
theorem c10_records_terminal (execute_tool : PyJson → PyJson → List (String × PyJson))
    (tool_calls : List ToolCallDict) :
    (process_tool_calls execute_tool tool_calls).1 =
      tool_calls.map (process_one_tool_call execute_tool) ∧
    ∀ tc : ToolCallDict,
      ¬(process_one_tool_call execute_tool tc).status = .pending ∧
      ((process_one_tool_call execute_tool tc).status = .success ↔
        ((match pyDictGet (execute_tool (tc_parsed_name tc) (tc_parsed_args tc)) "success" with
          | some v => pyTruthy v
          | none => true) = true ∧
         pyDictGet (execute_tool (tc_parsed_name tc) (tc_parsed_args tc)) "error" = none)) := by
  refine ⟨by rw [process_tool_calls_eq], ?_⟩
  intro tc
  unfold process_one_tool_call
  by_cases h : ((match pyDictGet (execute_tool (tc_parsed_name tc) (tc_parsed_args tc)) "success" with
      | some v => pyTruthy v
      | none => true) && (pyDictGet (execute_tool (tc_parsed_name tc) (tc_parsed_args tc)) "error").isNone) = true
  · simp only [h, if_true]
    constructor
    · simp
    · simp only [Bool.and_eq_true, Option.isNone_iff_eq_none] at h
      simp [h]
  · simp only [h, if_false]
    constructor
    · simp
    · constructor
      · intro hc; cases hc
      · intro hc
        exact absurd (by simp [hc.1, hc.2]) h
